import Mathlib

/-!
Shallow embedding of the UFC event page scraper (src/main.py).

Python strings are modelled as lists of Unicode code points (`List Nat`);
`strToCodes` converts a Lean string literal into this representation.  All
string operations used by the source (lowercasing, whitespace handling,
`str.split`, `str.strip`, substring tests, the regular expressions) act on
ASCII data, and are embedded at the code-point level.

The network fetch and the BeautifulSoup flattening are external
collaborators: the embedded extractor consumes the flattened page text
directly, exactly as `get_fighter_pairs_from_ufc_event` consumes
`soup.get_text(separator=" ")`.
-/

set_option maxRecDepth 2000000
set_option maxHeartbeats 2000000

namespace UfcScrape

/-- A Python string: its sequence of Unicode code points. -/
abbrev PyStr := List Nat

/-- Convert a Lean string literal to its code-point list. -/
def strToCodes (s : String) : PyStr := s.data.map Char.toNat

/-- Python `\s` / `str.strip` / `str.split` whitespace (ASCII fragment):
space, tab, newline, vertical tab, form feed, carriage return. -/
def isSpaceCode (c : Nat) : Bool :=
  c = 32 || c = 9 || c = 10 || c = 11 || c = 12 || c = 13

/-- Python `\d` (ASCII fragment): `0`-`9`. -/
def isDigitCode (c : Nat) : Bool := 48 ≤ c && c ≤ 57

/-- `[A-Z]`. -/
def isUpperCode (c : Nat) : Bool := 65 ≤ c && c ≤ 90

/-- `[a-z]`. -/
def isLowerCode (c : Nat) : Bool := 97 ≤ c && c ≤ 122

/-- `[a-zA-Z]`. -/
def isLetterCode (c : Nat) : Bool := isUpperCode c || isLowerCode c

/-- Python `\w` (ASCII fragment): letters, digits, underscore. -/
def isWordCode (c : Nat) : Bool := isLetterCode c || isDigitCode c || c = 95

/-- The character class `[a-zA-Z\s\-\']` used by the fighter-name regex. -/
def isNameClassCode (c : Nat) : Bool :=
  isLetterCode c || isSpaceCode c || c = 45 || c = 39

/-- Python `str.lower` on a code point (ASCII fragment). -/
def lowerCode (c : Nat) : Nat := if isUpperCode c then c + 32 else c

/-- Python `str.lower`. -/
def lowerStr (s : PyStr) : PyStr := s.map lowerCode

/-- Python `str.strip()`: remove leading and trailing whitespace. -/
def pyStrip (s : PyStr) : PyStr :=
  ((s.dropWhile isSpaceCode).reverse.dropWhile isSpaceCode).reverse

/-- Replace every maximal whitespace run by a single space
(the effect of `re.sub(r'\s+', ' ', s)`).  The boolean state records
whether the scan is inside a whitespace run whose single replacement
space has already been emitted. -/
def collapseRunsAux : Bool → PyStr → PyStr
  | _, [] => []
  | inRun, c :: rest =>
    if isSpaceCode c then
      if inRun then collapseRunsAux true rest
      else 32 :: collapseRunsAux true rest
    else c :: collapseRunsAux false rest

/-- `re.sub(r'\s+', ' ', s)`. -/
def collapseRuns (s : PyStr) : PyStr := collapseRunsAux false s

/-- `re.sub(r'\s+', ' ', s.strip())`: the whitespace normalisation used at
the start and the end of `clean_fighter_name`. -/
def collapseWs (s : PyStr) : PyStr := collapseRuns (pyStrip s)

/-- Guard of `re.sub(r'^#\d+\s+', '', s)`: `s` starts with `#`, then at
least one digit, then at least one whitespace character. -/
def rankGuard : PyStr → Bool
  | 35 :: rest =>
    !(rest.takeWhile isDigitCode).isEmpty &&
      !((rest.dropWhile isDigitCode).takeWhile isSpaceCode).isEmpty
  | _ => false

/-- `re.sub(r'^#\d+\s+', '', s)`: strip a leading ranking marker. -/
def stripRank (s : PyStr) : PyStr :=
  if rankGuard s then ((s.drop 1).dropWhile isDigitCode).dropWhile isSpaceCode
  else s

/-- Guard of `re.sub(r'^C\s+', '', s)`: `s` starts with `C` followed by
whitespace. -/
def champGuard : PyStr → Bool
  | 67 :: c :: _ => isSpaceCode c
  | _ => false

/-- `re.sub(r'^C\s+', '', s)`: strip the champion indicator. -/
def stripChamp (s : PyStr) : PyStr :=
  if champGuard s then (s.drop 1).dropWhile isSpaceCode else s

/-- Guard of `re.sub(r'^<kw>\s+', '', s, flags=re.I)`: `s` starts with the
keyword (case-insensitively) followed by at least one whitespace character.
(The default `0` of `getD` is not a whitespace code, so a too-short `s`
fails the guard.) -/
def prefixKwGuard (kw s : PyStr) : Bool :=
  lowerStr (s.take kw.length) = lowerStr kw && isSpaceCode (s.getD kw.length 0)

/-- `re.sub(r'^<kw>\s+', '', s, flags=re.I)`: strip the keyword together
with the whole whitespace run after it (`\s+` is greedy). -/
def stripPrefixKw (s kw : PyStr) : PyStr :=
  if prefixKwGuard kw s then (s.drop kw.length).dropWhile isSpaceCode else s

/-- Guard of `re.sub(r'\s+<kw>$', '', s, flags=re.I)`: `s` ends with the
keyword (case-insensitively) preceded by at least one whitespace
character. -/
def suffixKwGuard (kw s : PyStr) : Bool :=
  lowerStr (s.reverse.take kw.length) = lowerStr kw.reverse &&
    isSpaceCode (s.reverse.getD kw.length 0)

/-- `re.sub(r'\s+<kw>$', '', s, flags=re.I)`: strip the keyword together
with the whole whitespace run before it (the leftmost match of `\s+<kw>$`
starts at the beginning of that run). -/
def stripSuffixKw (s kw : PyStr) : PyStr :=
  if suffixKwGuard kw s then ((s.reverse.drop kw.length).dropWhile isSpaceCode).reverse
  else s

/-- The ordered prefix keyword list of `clean_fighter_name`. -/
def prefixKeywords : List PyStr :=
  [strToCodes "Live now", strToCodes "Live", strToCodes "LIVE NOW",
   strToCodes "LIVE", strToCodes "Card", strToCodes "Method",
   strToCodes "Main Card", strToCodes "Main"]

/-- The ordered suffix keyword list of `clean_fighter_name`. -/
def suffixKeywords : List PyStr :=
  [strToCodes "Round", strToCodes "Round Time", strToCodes "Time",
   strToCodes "Follow live", strToCodes "Follow", strToCodes "LIVE NOW",
   strToCodes "LIVE", strToCodes "now"]

/-- `clean_fighter_name` from src/main.py: whitespace normalisation, rank
marker strip, champion marker strip, the prefix keyword loop, the suffix
keyword loop, and a final whitespace normalisation. -/
def clean_fighter_name (name : PyStr) : PyStr :=
  let n1 := collapseWs name
  let n2 := stripRank n1
  let n3 := stripChamp n2
  let n4 := prefixKeywords.foldl stripPrefixKw n3
  let n5 := suffixKeywords.foldl stripSuffixKw n4
  collapseWs n5

/-- Python `str.split()` (no argument): split on whitespace runs,
discarding empty tokens.  `acc` is the current word, reversed. -/
def pySplitAux (acc : PyStr) : PyStr → List PyStr
  | [] => if acc.isEmpty then [] else [acc.reverse]
  | c :: rest =>
    if isSpaceCode c then
      if acc.isEmpty then pySplitAux [] rest
      else acc.reverse :: pySplitAux [] rest
    else pySplitAux (c :: acc) rest

/-- Python `str.split()`. -/
def pySplit (s : PyStr) : List PyStr := pySplitAux [] s

/-- Python substring containment `a in b` on strings: some contiguous
slice of `b` equals `a`. -/
def subIn (a b : PyStr) : Bool :=
  (List.range (b.length + 1)).any (fun i => (b.drop i).take a.length == a)

/-- `normalize_name_for_matching` from src/main.py: the last
whitespace-delimited word, lowercased; for a wordless string, the whole
string lowercased. -/
def normalize_name_for_matching (name : PyStr) : PyStr :=
  match (pySplit name).getLast? with
  | some w => lowerStr w
  | none => lowerStr name

/-- `names_match` from src/main.py: case-insensitive equality, or substring
containment refined by a shared last word. -/
def names_match (name1 name2 : PyStr) : Bool :=
  if lowerStr name1 = lowerStr name2 then true
  else if subIn (lowerStr name1) (lowerStr name2) || subIn (lowerStr name2) (lowerStr name1) then
    -- `shorter`/`longer` by character length (ties pick `name2` as shorter,
    -- mirroring the two Python conditional expressions); the match compares
    -- the last whitespace tokens of their lowercased splits, requiring both
    -- word lists to be non-empty.
    match (pySplit (lowerStr (if name1.length < name2.length then name1 else name2))).getLast?,
          (pySplit (lowerStr (if name1.length < name2.length then name2 else name1))).getLast? with
    | some x, some y => x = y
    | _, _ => false
  else false

/-! ### Validity filter (`valid1` / `valid2` in `get_fighter_pairs_from_ufc_event`) -/

/-- The words of the first exclude pattern `^(vs|odds|Flag)$`. -/
def excludeExactWords : List PyStr :=
  [strToCodes "vs", strToCodes "odds", strToCodes "Flag"]

/-- The country names of the second exclude pattern. -/
def excludeCountryWords : List PyStr :=
  [strToCodes "United States", strToCodes "England", strToCodes "Brazil",
   strToCodes "China", strToCodes "Russia", strToCodes "Dominican Republic",
   strToCodes "Lithuania", strToCodes "Cameroon"]

/-- The weight-class/title keywords of the third exclude pattern
`.*(Title|...|Fight Card).*`. -/
def excludeContainsWords : List PyStr :=
  [strToCodes "Title", strToCodes "Bout", strToCodes "Interim",
   strToCodes "Women", strToCodes "Lightweight", strToCodes "Bantamweight",
   strToCodes "Heavyweight", strToCodes "Featherweight",
   strToCodes "Light Heavyweight", strToCodes "Middleweight",
   strToCodes "Flyweight", strToCodes "Fight Card"]

/-- Python `$` (without `re.M`) also matches just before one final
newline; a pattern of the shape `^w$` therefore ignores a single
trailing newline of the subject. -/
def stripFinalNewline (s : PyStr) : PyStr :=
  if s.getLast? = some 10 then s.dropLast else s

/-- `re.match(r'^(w1|w2|...)$', f, re.I)` for a list of literal words. -/
def fullMatchAnyCi (words : List PyStr) (f : PyStr) : Bool :=
  words.any (fun w => lowerStr (stripFinalNewline f) = lowerStr w)

/-- `re.match(r'.*(w1|...).*', f, re.I)`: some keyword occurs,
case-insensitively, in the part of `f` before the first newline
(`.` does not match a newline). -/
def containsAnyCi (words : List PyStr) (f : PyStr) : Bool :=
  words.any (fun w => subIn (lowerStr w) (lowerStr (f.takeWhile (fun c => !(c = 10)))))

/-- `any(re.match(p, f, re.I) for p in exclude_patterns)`. -/
def matchesExcludePattern (f : PyStr) : Bool :=
  fullMatchAnyCi excludeExactWords f ||
    fullMatchAnyCi excludeCountryWords f ||
    containsAnyCi excludeContainsWords f

/-- `re.match(r'^[A-Z][a-zA-Z\s\-\']+$', f)` (case-sensitive): an
uppercase letter followed by at least one name-class character. -/
def properNameShape : PyStr → Bool
  | [] => false
  | c :: rest => isUpperCode c && !rest.isEmpty && rest.all isNameClassCode

/-- The per-side validity test of `get_fighter_pairs_from_ufc_event`:
length in `[5, 40]`, no exclude pattern matches, proper name shape. -/
def is_valid_name (f : PyStr) : Bool :=
  5 ≤ f.length && f.length ≤ 40 && !matchesExcludePattern f && properNameShape f

/-! ### The pattern scan

`re.compile(r'\b([A-Z][a-zA-Z\s\-\']{2,50})\s+vs\s+([A-Z][a-zA-Z\s\-\']{2,50})\b').findall(text)`

The scan is embedded as a backtracking matcher specialised to this
pattern: at each position, after a word boundary, the first group tries
its repetition counts greedily from 50 down to 2; for each candidate the
rest of the pattern is attempted, and the first success wins.  The two
`\s+` pieces need no backtracking loop: the characters required right
after them (`v` of the literal `vs`, and the `[A-Z]` of the second
group) are never whitespace, so only the maximal whitespace run can
succeed.  `findall` collects non-overlapping matches left to right,
resuming after each match end. -/

/-- Is the character at position `i` a word character (`\w`)?
Out-of-range positions count as non-word. -/
def wordAt (t : PyStr) (i : Nat) : Bool :=
  match t.get? i with
  | some c => isWordCode c
  | none => false

/-- `\b` at position `i`. -/
def atWordBoundary (t : PyStr) (i : Nat) : Bool :=
  (if i = 0 then false else wordAt t (i - 1)) != wordAt t i

/-- The candidate capture `[A-Z][a-zA-Z\s\-\']{k}` at position `i`:
`k + 1` characters must be available, the first an uppercase letter, the
remaining `k` in the name class. -/
def nameGroupAt (t : PyStr) (i k : Nat) : Option PyStr :=
  match (t.drop i).take (k + 1) with
  | [] => none
  | c :: rest =>
    if (c :: rest).length = k + 1 && isUpperCode c && rest.all isNameClassCode
    then some (c :: rest) else none

/-- Length of the whitespace run starting at position `i`. -/
def wsRun (t : PyStr) (i : Nat) : Nat :=
  ((t.drop i).takeWhile isSpaceCode).length

/-- The literal `vs`. -/
def vsLit : PyStr := [118, 115]

/-- Does the literal `w` occur at position `i`? -/
def litAt (t : PyStr) (i : Nat) (w : PyStr) : Bool :=
  (t.drop i).take w.length == w

/-- Greedy attempt of the second group `([A-Z][a-zA-Z\s\-\']{2,50})\b`
at position `p`, trying repetition counts from `r` down to `2`; returns
the capture and the match end. -/
def tryG2 (t : PyStr) (p : Nat) : Nat → Option (PyStr × Nat)
  | 0 => none
  | 1 => none
  | r + 2 =>
    match nameGroupAt t p (r + 2) with
    | some g =>
      if atWordBoundary t (p + r + 3) then some (g, p + r + 3)
      else tryG2 t p (r + 1)
    | none => tryG2 t p (r + 1)

/-- The part `\s+vs\s+([A-Z][a-zA-Z\s\-\']{2,50})\b` of the pattern,
starting at position `j` (right after the first group): a non-empty
whitespace run, the literal `vs`, a second non-empty whitespace run, and
the second group. -/
def afterG1 (t : PyStr) (j : Nat) : Option (PyStr × Nat) :=
  if wsRun t j = 0 then none
  else if litAt t (j + wsRun t j) vsLit then
    if wsRun t (j + wsRun t j + 2) = 0 then none
    else tryG2 t (j + wsRun t j + 2 + wsRun t (j + wsRun t j + 2)) 50
  else none

/-- Greedy attempt of the first group at position `i`, repetition counts
from `r` down to `2`; on each candidate the rest of the pattern is tried
(regex backtracking). -/
def tryG1 (t : PyStr) (i : Nat) : Nat → Option (PyStr × PyStr × Nat)
  | 0 => none
  | 1 => none
  | r + 2 =>
    match nameGroupAt t i (r + 2) with
    | some g1 =>
      match afterG1 t (i + r + 3) with
      | some (g2, e) => some (g1, g2, e)
      | none => tryG1 t i (r + 1)
    | none => tryG1 t i (r + 1)

/-- Attempt the whole pattern at position `i`. -/
def matchVsAt (t : PyStr) (i : Nat) : Option (PyStr × PyStr × Nat) :=
  if atWordBoundary t i then tryG1 t i 50 else none

/-- The `findall` scan: try each position left to right, resume after a
match end.  The fuel argument bounds the number of scan steps; every
step advances the position by at least one, so `t.length + 2` steps
always complete the scan. -/
def scanVs (t : PyStr) : Nat → Nat → List (PyStr × PyStr)
  | 0, _ => []
  | fuel + 1, i =>
    if t.length < i then []
    else
      match matchVsAt t i with
      | some (g1, g2, e) => (g1, g2) :: scanVs t fuel e
      | none => scanVs t fuel (i + 1)

/-- `pattern.findall(text)` for the fighter-pair pattern. -/
def findVsMatches (t : PyStr) : List (PyStr × PyStr) :=
  scanVs t (t.length + 2) 0

/-! ### Aggregation (`seen_pairs` in `get_fighter_pairs_from_ufc_event`) -/

/-- A pair of fighter names. -/
abbrev FighterPair := PyStr × PyStr

/-- Python string comparison `<`: lexicographic on code points. -/
def lexLt : PyStr → PyStr → Bool
  | [], [] => false
  | [], _ :: _ => true
  | _ :: _, [] => false
  | a :: as, b :: bs => if a < b then true else if b < a then false else lexLt as bs

/-- `tuple(sorted([a, b]))` for two strings. -/
def sortedKey (a b : PyStr) : PyStr × PyStr := if lexLt b a then (b, a) else (a, b)

/-- The aggregation key of a pair: its two normalized names, sorted. -/
def pairKeyOf (p : FighterPair) : PyStr × PyStr :=
  sortedKey (normalize_name_for_matching p.1) (normalize_name_for_matching p.2)

/-- The bidirectional pair match used when scanning `seen_pairs`:
aligned sides or swapped sides. -/
def pairsMatchBidir (p q : FighterPair) : Bool :=
  (names_match p.1 q.1 && names_match p.2 q.2) ||
    (names_match p.1 q.2 && names_match p.2 q.1)

/-- The noise words checked by the replacement heuristic. -/
def unwantedWords : List PyStr :=
  [strToCodes "live", strToCodes "round", strToCodes "method",
   strToCodes "card", strToCodes "follow", strToCodes "time"]

/-- `any(word in fighter1.lower() or word in fighter2.lower() for word in [...])`. -/
def hasUnwantedWord (p : FighterPair) : Bool :=
  unwantedWords.any (fun w => subIn w (lowerStr p.1) || subIn w (lowerStr p.2))

/-- Total word count of a pair (`len(f1.split()) + len(f2.split())`). -/
def totalWords (p : FighterPair) : Nat :=
  (pySplit p.1).length + (pySplit p.2).length

/-- Total character count of a pair (`len(f1) + len(f2)`). -/
def totalLen (p : FighterPair) : Nat := p.1.length + p.2.length

/-- The replacement decision of the aggregation loop: is the current
pair preferred over the stored representative?  Mirrors the
`if not current_has_unwanted and existing_has_unwanted ... elif ...`
cascade; in every non-listed case the stored pair is kept. -/
def prefersCurrent (cur ex : FighterPair) : Bool :=
  if !hasUnwantedWord cur && hasUnwantedWord ex then true
  else if hasUnwantedWord cur == hasUnwantedWord ex then
    if totalWords ex < totalWords cur then true
    else if totalWords cur = totalWords ex && totalLen ex < totalLen cur then true
    else false
  else false

/-- The ordered mapping `seen_pairs` (a Python `dict` preserves
insertion order). -/
abbrev SeenPairs := List ((PyStr × PyStr) × FighterPair)

/-- `seen_pairs[k] = v`: replace in place if the key exists, else append. -/
def dictSet (m : SeenPairs) (k : PyStr × PyStr) (v : FighterPair) : SeenPairs :=
  match m with
  | [] => [(k, v)]
  | (k', v') :: rest => if k' = k then (k, v) :: rest else (k', v') :: dictSet rest k v

/-- One iteration of the aggregation loop for a valid cleaned pair. -/
def processPair (m : SeenPairs) (p : FighterPair) : SeenPairs :=
  match m.find? (fun e => pairsMatchBidir p e.2) with
  | none => dictSet m (pairKeyOf p) p
  | some (k, ex) => if prefersCurrent p ex then dictSet m k p else m

/-- The raw matches of the pattern scan, each side stripped and cleaned
(`match[i].strip()` then `clean_fighter_name`). -/
def extractedPairs (text : PyStr) : List FighterPair :=
  (findVsMatches text).map
    (fun m => (clean_fighter_name (pyStrip m.1), clean_fighter_name (pyStrip m.2)))

/-- The cleaned pairs that pass the validity filter on both sides. -/
def validCleanedPairs (text : PyStr) : List FighterPair :=
  (extractedPairs text).filter (fun p => is_valid_name p.1 && is_valid_name p.2)

/-- `get_fighter_pairs_from_ufc_event`, with the already-flattened page
text in place of the fetched and soup-flattened response: scan, clean,
filter, aggregate, and return the stored representatives in insertion
order (`list(seen_pairs.values())`). -/
def get_fighter_pairs_from_ufc_event (text : PyStr) : List FighterPair :=
  ((validCleanedPairs text).foldl processPair []).map Prod.snd

/-! ### The `__main__` glue -/

/-- The user-visible message of the empty-result path. -/
def noFightsMessage : PyStr := strToCodes "No fights found to save."

/-- The observable outcome of the script body: the extracted pairs,
whether an Excel file is created, and the final printed message
(`if fight_pairs: create_excel_file(...) ... else: print("No fights found to save.")`). -/
def mainOutcome (text : PyStr) : List FighterPair × Bool × PyStr :=
  let fp := get_fighter_pairs_from_ufc_event text
  if fp.isEmpty then (fp, false, noFightsMessage)
  else (fp, true, strToCodes "Total fights saved")

/-! ### Basic facts about lowercasing and splitting -/

theorem isSpaceCode_lowerCode (c : Nat) : isSpaceCode (lowerCode c) = isSpaceCode c := by
  unfold lowerCode
  split
  · next h =>
    simp only [isUpperCode, Bool.and_eq_true, decide_eq_true_eq] at h
    have h1 : isSpaceCode (c + 32) = false := by
      simp only [isSpaceCode, Bool.or_eq_false_iff, decide_eq_false_iff_not]
      omega
    have h2 : isSpaceCode c = false := by
      simp only [isSpaceCode, Bool.or_eq_false_iff, decide_eq_false_iff_not]
      omega
    rw [h1, h2]
  · rfl

theorem length_lowerStr (s : PyStr) : (lowerStr s).length = s.length := by
  simp [lowerStr]

theorem isEmpty_map (f : Nat → Nat) (s : PyStr) : (s.map f).isEmpty = s.isEmpty := by
  cases s <;> rfl

/-- `pySplitAux` commutes with a space-preserving character map. -/
theorem pySplitAux_map (f : Nat → Nat) (hf : ∀ c, isSpaceCode (f c) = isSpaceCode c) :
    ∀ (s acc : PyStr),
      pySplitAux (acc.map f) (s.map f) = (pySplitAux acc s).map (List.map f)
  | [], acc => by
    simp only [List.map_nil, pySplitAux, isEmpty_map]
    split <;> simp
  | c :: rest, acc => by
    simp only [List.map_cons, pySplitAux, hf c, isEmpty_map]
    split
    · split
      · exact pySplitAux_map f hf rest []
      · simp only [List.map_cons]
        rw [← List.map_reverse]
        exact congrArg _ (pySplitAux_map f hf rest [])
    · rw [show (f c :: acc.map f) = (c :: acc).map f from rfl]
      exact pySplitAux_map f hf rest (c :: acc)

/-- `str.split` commutes with `str.lower`. -/
theorem pySplit_lowerStr (s : PyStr) :
    pySplit (lowerStr s) = (pySplit s).map lowerStr := by
  unfold pySplit lowerStr
  exact pySplitAux_map lowerCode isSpaceCode_lowerCode s []

/-- `normalize_name_for_matching` seen through the lowercased split. -/
theorem normalize_eq_lower_form (s : PyStr) :
    normalize_name_for_matching s = ((pySplit (lowerStr s)).getLast?).getD (lowerStr s) := by
  unfold normalize_name_for_matching
  rw [pySplit_lowerStr, List.getLast?_map]
  cases (pySplit s).getLast? <;> rfl

/-! ### C10: a positive `names_match` forces equal normalized keys -/

theorem names_match_normalize {a b : PyStr} (h : names_match a b = true) :
    normalize_name_for_matching a = normalize_name_for_matching b := by
  unfold names_match at h
  by_cases heq : lowerStr a = lowerStr b
  · rw [normalize_eq_lower_form, normalize_eq_lower_form, heq]
  · rw [if_neg heq] at h
    by_cases hsub : (subIn (lowerStr a) (lowerStr b) || subIn (lowerStr b) (lowerStr a)) = true
    · rw [if_pos hsub] at h
      rw [normalize_eq_lower_form, normalize_eq_lower_form]
      by_cases hlt : a.length < b.length
      · rw [if_pos hlt, if_pos hlt] at h
        cases hsa : (pySplit (lowerStr a)).getLast? with
        | none => rw [hsa] at h; simp at h
        | some x =>
          cases hsb : (pySplit (lowerStr b)).getLast? with
          | none => rw [hsa, hsb] at h; simp at h
          | some y =>
            rw [hsa, hsb] at h
            simp only [decide_eq_true_eq] at h
            simp [h]
      · rw [if_neg hlt, if_neg hlt] at h
        cases hsa : (pySplit (lowerStr a)).getLast? with
        | none => rw [hsa] at h; simp at h
        | some x =>
          cases hsb : (pySplit (lowerStr b)).getLast? with
          | none => rw [hsa, hsb] at h; simp at h
          | some y =>
            rw [hsb, hsa] at h
            simp only [decide_eq_true_eq] at h
            simp [h]
    · rw [if_neg hsub] at h
      exact absurd h (by simp)

/-! ### Facts about the aggregation keys -/

theorem lexLt_asymm : ∀ (a b : PyStr), lexLt a b = true → lexLt b a = false
  | [], [] => by simp [lexLt]
  | [], _ :: _ => by simp [lexLt]
  | _ :: _, [] => by simp [lexLt]
  | x :: xs, y :: ys => by
    simp only [lexLt]
    intro h
    by_cases hxy : x < y
    · rw [if_neg (by omega), if_pos hxy]
    · rw [if_neg hxy] at h
      by_cases hyx : y < x
      · rw [if_pos hyx] at h; exact absurd h (by simp)
      · rw [if_neg hyx] at h
        rw [if_neg hyx, if_neg hxy]
        exact lexLt_asymm xs ys h

theorem lexLt_total_eq : ∀ (a b : PyStr),
    lexLt a b = false → lexLt b a = false → a = b
  | [], [] => fun _ _ => rfl
  | [], _ :: _ => by simp [lexLt]
  | _ :: _, [] => by simp [lexLt]
  | x :: xs, y :: ys => by
    simp only [lexLt]
    intro h1 h2
    by_cases hxy : x < y
    · rw [if_pos hxy] at h1; exact absurd h1 (by simp)
    · by_cases hyx : y < x
      · rw [if_pos hyx] at h2; exact absurd h2 (by simp)
      · rw [if_neg hxy, if_neg hyx] at h1
        rw [if_neg hyx, if_neg hxy] at h2
        have hx : x = y := by omega
        rw [hx, lexLt_total_eq xs ys h1 h2]

theorem sortedKey_comm (a b : PyStr) : sortedKey a b = sortedKey b a := by
  unfold sortedKey
  by_cases h1 : lexLt b a = true
  · rw [if_pos h1, if_neg (by rw [lexLt_asymm b a h1]; simp)]
  · have h1' : lexLt b a = false := by revert h1; cases lexLt b a <;> simp
    rw [if_neg h1]
    by_cases h2 : lexLt a b = true
    · rw [if_pos h2]
    · have h2' : lexLt a b = false := by revert h2; cases lexLt a b <;> simp
      rw [if_neg h2, lexLt_total_eq b a h1' h2']

/-- A bidirectional pair match forces equal aggregation keys. -/
theorem pairKeyOf_eq_of_match {p q : FighterPair} (h : pairsMatchBidir p q = true) :
    pairKeyOf p = pairKeyOf q := by
  unfold pairsMatchBidir at h
  simp only [Bool.or_eq_true, Bool.and_eq_true] at h
  unfold pairKeyOf
  rcases h with ⟨h1, h2⟩ | ⟨h1, h2⟩
  · rw [names_match_normalize h1, names_match_normalize h2]
  · rw [names_match_normalize h1, names_match_normalize h2, sortedKey_comm]

/-! ### The aggregation invariant -/

/-- Invariant of the `seen_pairs` mapping: every entry is keyed by the
aggregation key of its stored pair, and the keys are pairwise distinct
(a Python `dict` has unique keys). -/
def goodSeen (m : SeenPairs) : Prop :=
  (∀ e ∈ m, e.1 = pairKeyOf e.2) ∧ (m.map Prod.fst).Nodup

theorem mem_dictSet {k : PyStr × PyStr} {v : FighterPair} :
    ∀ {m : SeenPairs} {e}, e ∈ dictSet m k v → e ∈ m ∨ e = (k, v)
  | [], e, he => by
    simp only [dictSet, List.mem_singleton] at he
    exact Or.inr he
  | (k', v') :: rest, e, he => by
    simp only [dictSet] at he
    split at he
    · rcases List.mem_cons.1 he with h | h
      · exact Or.inr h
      · exact Or.inl (List.mem_cons_of_mem _ h)
    · rcases List.mem_cons.1 he with h | h
      · exact Or.inl (h ▸ List.mem_cons_self _ _)
      · rcases mem_dictSet h with h' | h'
        · exact Or.inl (List.mem_cons_of_mem _ h')
        · exact Or.inr h'

theorem keys_dictSet (k : PyStr × PyStr) (v : FighterPair) :
    ∀ (m : SeenPairs),
      (dictSet m k v).map Prod.fst =
        if k ∈ m.map Prod.fst then m.map Prod.fst else m.map Prod.fst ++ [k]
  | [] => by simp [dictSet]
  | (k', v') :: rest => by
    simp only [dictSet]
    split
    · next heq =>
      simp [heq, List.mem_cons]
    · next hne =>
      have hne' : ¬k = k' := fun h => hne h.symm
      simp only [List.map_cons, List.mem_cons, keys_dictSet k v rest]
      by_cases hmem : k ∈ rest.map Prod.fst
      · rw [if_pos hmem, if_pos (Or.inr hmem)]
      · rw [if_neg hmem, if_neg (by intro h; rcases h with h | h; exact hne' h; exact hmem h)]
        simp

theorem nodup_keys_dictSet {m : SeenPairs} {k v} (hm : (m.map Prod.fst).Nodup) :
    ((dictSet m k v).map Prod.fst).Nodup := by
  rw [keys_dictSet]
  split
  · exact hm
  · next hnot =>
    exact List.Nodup.append hm (List.nodup_singleton k)
      (fun a ha hb => hnot (by rwa [List.mem_singleton.1 hb] at ha))

theorem goodSeen_dictSet {m : SeenPairs} {k v} (hm : goodSeen m)
    (hk : k = pairKeyOf v) : goodSeen (dictSet m k v) := by
  refine ⟨?_, nodup_keys_dictSet hm.2⟩
  intro e he
  rcases mem_dictSet he with h | h
  · exact hm.1 e h
  · rw [h, hk]

theorem goodSeen_processPair {m : SeenPairs} {p : FighterPair}
    (hm : goodSeen m) : goodSeen (processPair m p) := by
  unfold processPair
  cases hf : m.find? (fun e => pairsMatchBidir p e.2) with
  | none =>
    simp only [hf]
    exact goodSeen_dictSet hm rfl
  | some e =>
    obtain ⟨k, ex⟩ := e
    have hmem : (k, ex) ∈ m := List.mem_of_find?_eq_some hf
    have hpred : pairsMatchBidir p ex = true := by
      have := List.find?_some hf
      simpa using this
    simp only [hf]
    split
    · refine goodSeen_dictSet hm ?_
      have hk : k = pairKeyOf ex := hm.1 (k, ex) hmem
      rw [hk]
      exact (pairKeyOf_eq_of_match hpred).symm
    · exact hm

theorem goodSeen_foldl :
    ∀ (ps : List FighterPair) (m : SeenPairs), goodSeen m →
      goodSeen (ps.foldl processPair m)
  | [], _, hm => hm
  | _ :: ps, _, hm => goodSeen_foldl ps _ (goodSeen_processPair hm)

theorem goodSeen_nil : goodSeen [] := ⟨by simp, by simp⟩

/-- A duplicate-free list all of whose elements are equal has at most
one element. -/
theorem length_le_one_of_nodup_const {κ : Type} {L : List κ} {c : κ}
    (h : L.Nodup) (hall : ∀ x ∈ L, x = c) : L.length ≤ 1 := by
  match L with
  | [] => simp
  | [_] => simp
  | x :: y :: rest =>
    exfalso
    have hx := hall x (by simp)
    have hy := hall y (by simp)
    rw [List.nodup_cons] at h
    exact h.1 (by rw [hx, ← hy]; exact List.mem_cons_self _ _)

/-- C4: for every input text and all extracted valid pairs `p1`, `p2`
whose sides match bidirectionally under the pair matcher, the final
output list contains at most one entry representing them (matching both
`p1` and `p2` bidirectionally). -/
theorem claim_C4_dedup (text : PyStr) (p1 p2 : FighterPair)
    (h1 : p1 ∈ validCleanedPairs text) (h2 : p2 ∈ validCleanedPairs text)
    (h12 : pairsMatchBidir p1 p2 = true) :
    ((get_fighter_pairs_from_ufc_event text).filter
        (fun r => pairsMatchBidir r p1 && pairsMatchBidir r p2)).length ≤ 1 := by
  have hgood : goodSeen ((validCleanedPairs text).foldl processPair []) :=
    goodSeen_foldl _ [] goodSeen_nil
  unfold get_fighter_pairs_from_ufc_event
  rw [List.filter_map, List.length_map]
  have hconst : ∀ e ∈ ((validCleanedPairs text).foldl processPair []).filter
      ((fun r => pairsMatchBidir r p1 && pairsMatchBidir r p2) ∘ Prod.snd),
      e.1 = pairKeyOf p1 := by
    intro e he
    rw [List.mem_filter] at he
    have hq := he.2
    simp only [Function.comp_apply, Bool.and_eq_true] at hq
    rw [hgood.1 e he.1]
    exact pairKeyOf_eq_of_match hq.1
  have hnd : ((((validCleanedPairs text).foldl processPair []).filter
      ((fun r => pairsMatchBidir r p1 && pairsMatchBidir r p2) ∘ Prod.snd)).map
        Prod.fst).Nodup :=
    List.Nodup.sublist (List.Sublist.map Prod.fst (List.filter_sublist _)) hgood.2
  have hlen := length_le_one_of_nodup_const hnd
    (by
      intro x hx
      rw [List.mem_map] at hx
      obtain ⟨e, he, hex⟩ := hx
      rw [← hex]
      exact hconst e he)
  simpa using hlen

/-- Witness for C4 at a concrete text with two bidirectionally matching
extracted pairs. -/
theorem claim_C4_dedup_witness :
    (strToCodes "Justin Gaethje", strToCodes "Max Holloway") ∈
        validCleanedPairs (strToCodes "Justin Gaethje vs Max Holloway. Gaethje vs Holloway") ∧
      (strToCodes "Gaethje", strToCodes "Holloway") ∈
        validCleanedPairs (strToCodes "Justin Gaethje vs Max Holloway. Gaethje vs Holloway") ∧
      pairsMatchBidir (strToCodes "Justin Gaethje", strToCodes "Max Holloway")
        (strToCodes "Gaethje", strToCodes "Holloway") = true ∧
      ((get_fighter_pairs_from_ufc_event
            (strToCodes "Justin Gaethje vs Max Holloway. Gaethje vs Holloway")).filter
          (fun r =>
            pairsMatchBidir r (strToCodes "Justin Gaethje", strToCodes "Max Holloway") &&
              pairsMatchBidir r (strToCodes "Gaethje", strToCodes "Holloway"))).length ≤ 1 :=
  ⟨by decide, by decide, by decide,
    claim_C4_dedup _ _ _ (by decide) (by decide) (by decide)⟩

/-! ### Properties of the pattern-scan captures (C7) -/

/-- What actually holds of a raw capture of the fighter-name pattern:
it has between 3 and `bound` characters, starts with an uppercase
letter, and consists only of characters of the class `[a-zA-Z\s\-\']`
(letters, whitespace, hyphen, apostrophe). -/
def goodCapture (bound : Nat) (g : PyStr) : Prop :=
  3 ≤ g.length ∧ g.length ≤ bound ∧
    (∃ c rest, g = c :: rest ∧ isUpperCode c = true) ∧
    g.all isNameClassCode = true

theorem isNameClassCode_of_upper {c : Nat} (h : isUpperCode c = true) :
    isNameClassCode c = true := by
  simp [isNameClassCode, isLetterCode, h]

theorem nameGroupAt_some {t : PyStr} {i k : Nat} {g : PyStr}
    (h : nameGroupAt t i k = some g) :
    g.length = k + 1 ∧
      (∃ c rest, g = c :: rest ∧ isUpperCode c = true) ∧
      g.all isNameClassCode = true := by
  unfold nameGroupAt at h
  split at h
  · exact absurd h (by simp)
  · next c rest heq =>
    split at h
    · next hguard =>
      simp only [Bool.and_eq_true, decide_eq_true_eq] at hguard
      obtain ⟨⟨hlen, hup⟩, hall⟩ := hguard
      have hg : g = c :: rest := by
        injection h with h'
        exact h'.symm
      subst hg
      refine ⟨hlen, ⟨c, rest, rfl, hup⟩, ?_⟩
      simp only [List.all_cons, Bool.and_eq_true]
      exact ⟨isNameClassCode_of_upper hup, hall⟩
    · exact absurd h (by simp)

theorem tryG2_goodCapture {t : PyStr} {p : Nat} :
    ∀ {r : Nat} {g : PyStr} {e : Nat},
      tryG2 t p r = some (g, e) → goodCapture (r + 1) g
  | 0, g, e => by intro h; exact absurd h (by simp [tryG2])
  | 1, g, e => by intro h; exact absurd h (by simp [tryG2])
  | r + 2, g, e => by
    intro h
    unfold tryG2 at h
    split at h
    · next g0 hng =>
      split at h
      · obtain ⟨hlen, hhead, hall⟩ := nameGroupAt_some hng
        have h' : (g0, p + r + 3) = (g, e) := Option.some.inj h
        have hg : g0 = g := congrArg Prod.fst h'
        subst hg
        exact ⟨by omega, by omega, hhead, hall⟩
      · have := tryG2_goodCapture (r := r + 1) h
        exact ⟨this.1, by have := this.2.1; omega, this.2.2⟩
    · have := tryG2_goodCapture (r := r + 1) h
      exact ⟨this.1, by have := this.2.1; omega, this.2.2⟩

theorem afterG1_goodCapture {t : PyStr} {j : Nat} {g2 : PyStr} {e : Nat}
    (h : afterG1 t j = some (g2, e)) : goodCapture 51 g2 := by
  unfold afterG1 at h
  split at h
  · exact absurd h (by simp)
  · split at h
    · split at h
      · exact absurd h (by simp)
      · exact tryG2_goodCapture h
    · exact absurd h (by simp)

theorem tryG1_goodCapture {t : PyStr} {i : Nat} :
    ∀ {r : Nat} {g1 g2 : PyStr} {e : Nat},
      tryG1 t i r = some (g1, g2, e) →
        goodCapture (r + 1) g1 ∧ goodCapture 51 g2
  | 0, g1, g2, e => by intro h; exact absurd h (by simp [tryG1])
  | 1, g1, g2, e => by intro h; exact absurd h (by simp [tryG1])
  | r + 2, g1, g2, e => by
    intro h
    unfold tryG1 at h
    split at h
    · next g0 hng =>
      split at h
      · next g2' e' haf =>
        obtain ⟨hlen, hhead, hall⟩ := nameGroupAt_some hng
        have h' : (g0, g2', e') = (g1, g2, e) := Option.some.inj h
        have hg1 : g0 = g1 := congrArg (fun x => x.1) h'
        have hg2 : g2' = g2 := congrArg (fun x => x.2.1) h'
        subst hg1
        subst hg2
        exact ⟨⟨by omega, by omega, hhead, hall⟩, afterG1_goodCapture haf⟩
      · have := tryG1_goodCapture (r := r + 1) h
        exact ⟨⟨this.1.1, by have := this.1.2.1; omega, this.1.2.2⟩, this.2⟩
    · have := tryG1_goodCapture (r := r + 1) h
      exact ⟨⟨this.1.1, by have := this.1.2.1; omega, this.1.2.2⟩, this.2⟩

theorem matchVsAt_goodCapture {t : PyStr} {i : Nat} {g1 g2 : PyStr} {e : Nat}
    (h : matchVsAt t i = some (g1, g2, e)) :
    goodCapture 51 g1 ∧ goodCapture 51 g2 := by
  unfold matchVsAt at h
  split at h
  · exact tryG1_goodCapture h
  · exact absurd h (by simp)

theorem scanVs_goodCapture {t : PyStr} :
    ∀ {fuel i : Nat} {m : PyStr × PyStr}, m ∈ scanVs t fuel i →
      goodCapture 51 m.1 ∧ goodCapture 51 m.2
  | 0, i, m => by intro h; exact absurd h (by simp [scanVs])
  | fuel + 1, i, m => by
    intro h
    unfold scanVs at h
    split at h
    · exact absurd h (by simp)
    · split at h
      · next g1 g2 e hma =>
        rcases List.mem_cons.1 h with h' | h'
        · rw [h']
          exact matchVsAt_goodCapture hma
        · exact scanVs_goodCapture h'
      · exact scanVs_goodCapture h

/-- C7 (amended): every raw capture of the pattern scan starts with an
uppercase letter, consists only of letters, whitespace characters,
hyphens and apostrophes, and has length between 3 and 51. -/
theorem claim_C7_amended (t : PyStr) (g1 g2 : PyStr)
    (h : (g1, g2) ∈ findVsMatches t) : goodCapture 51 g1 ∧ goodCapture 51 g2 :=
  scanVs_goodCapture h

/-- Witness for C7 at a concrete text. -/
theorem claim_C7_amended_witness :
    (strToCodes "Justin Gaethje", strToCodes "Max Holloway") ∈
        findVsMatches (strToCodes "Justin Gaethje vs Max Holloway") ∧
      goodCapture 51 (strToCodes "Justin Gaethje") ∧
      goodCapture 51 (strToCodes "Max Holloway") :=
  ⟨by decide,
    (claim_C7_amended (strToCodes "Justin Gaethje vs Max Holloway")
      (strToCodes "Justin Gaethje") (strToCodes "Max Holloway") (by decide)).1,
    (claim_C7_amended (strToCodes "Justin Gaethje vs Max Holloway")
      (strToCodes "Justin Gaethje") (strToCodes "Max Holloway") (by decide)).2⟩

/-- C7 counterexample: a capture can be 51 characters long (the regex
shape is `[A-Z][a-zA-Z\s\-\']{2,50}`, one leading character plus up to
50 more) and can contain a tab, which `\s` accepts; the claimed bound of
50 and the claimed "letters, spaces, hyphens, apostrophes" alphabet are
both violated. -/
theorem claim_C7_counterexample :
    findVsMatches
        (strToCodes "Aaaaaaaaaaaaaaaaaaaaaaaaaaaaaaa\tbbbbbbbbbbbbbbbbbbb vs Xyzzy") =
      [(strToCodes "Aaaaaaaaaaaaaaaaaaaaaaaaaaaaaaa\tbbbbbbbbbbbbbbbbbbb",
        strToCodes "Xyzzy")] ∧
      (strToCodes "Aaaaaaaaaaaaaaaaaaaaaaaaaaaaaaa\tbbbbbbbbbbbbbbbbbbb").length = 51 ∧
      9 ∈ strToCodes "Aaaaaaaaaaaaaaaaaaaaaaaaaaaaaaa\tbbbbbbbbbbbbbbbbbbb" := by
  refine ⟨by decide, by decide, by decide⟩

/-! ### Idempotence analysis of the cleaner (C3) -/

/-- The first character, if any, is not whitespace. -/
def headNotSpace (s : PyStr) : Bool :=
  match s.head? with
  | some c => !isSpaceCode c
  | none => true

/-- The last character, if any, is not whitespace. -/
def lastNotSpace (s : PyStr) : Bool :=
  match s.getLast? with
  | some c => !isSpaceCode c
  | none => true

theorem collapseRunsAux_cons_space_true {c : Nat} (h : isSpaceCode c = true)
    (rest : PyStr) : collapseRunsAux true (c :: rest) = collapseRunsAux true rest := by
  simp [collapseRunsAux, h]

theorem collapseRunsAux_cons_space_false {c : Nat} (h : isSpaceCode c = true)
    (rest : PyStr) :
    collapseRunsAux false (c :: rest) = 32 :: collapseRunsAux true rest := by
  simp [collapseRunsAux, h]

theorem collapseRunsAux_cons_nonspace {c : Nat} (h : isSpaceCode c = false)
    (rest : PyStr) (b : Bool) :
    collapseRunsAux b (c :: rest) = c :: collapseRunsAux false rest := by
  simp [collapseRunsAux, h]

theorem headNotSpace_dropWhile (v : PyStr) :
    headNotSpace (v.dropWhile isSpaceCode) = true := by
  induction v with
  | nil => rfl
  | cons c rest ih =>
    by_cases h : isSpaceCode c = true
    · rw [List.dropWhile_cons_of_pos h]; exact ih
    · rw [List.dropWhile_cons_of_neg h]
      simp only [headNotSpace, List.head?_cons]
      simp at h
      simp [h]

theorem dropWhile_eq_self_of_headNotSpace {u : PyStr} (h : headNotSpace u = true) :
    u.dropWhile isSpaceCode = u := by
  cases u with
  | nil => rfl
  | cons c rest =>
    simp only [headNotSpace, List.head?_cons, Bool.not_eq_true'] at h
    rw [List.dropWhile_cons_of_neg (by simp [h])]

theorem lastNotSpace_pyStrip (s : PyStr) : lastNotSpace (pyStrip s) = true := by
  unfold pyStrip lastNotSpace
  rw [List.getLast?_reverse]
  have h := headNotSpace_dropWhile ((s.dropWhile isSpaceCode).reverse)
  unfold headNotSpace at h
  exact h

theorem headNotSpace_pyStrip (s : PyStr) : headNotSpace (pyStrip s) = true := by
  unfold pyStrip headNotSpace
  rw [List.head?_reverse]
  cases hw : (List.dropWhile isSpaceCode ((s.dropWhile isSpaceCode).reverse)).getLast? with
  | none => rfl
  | some c =>
    obtain ⟨tp, htp⟩ :=
      List.dropWhile_suffix (l := (s.dropWhile isSpaceCode).reverse) isSpaceCode
    have hv : ((s.dropWhile isSpaceCode).reverse).getLast? = some c := by
      rw [← htp, List.getLast?_append, hw]
      rfl
    rw [List.getLast?_reverse] at hv
    have hh := headNotSpace_dropWhile s
    unfold headNotSpace at hh
    rw [hv] at hh
    exact hh

theorem pyStrip_eq_self {u : PyStr} (hh : headNotSpace u = true)
    (hl : lastNotSpace u = true) : pyStrip u = u := by
  unfold pyStrip
  rw [dropWhile_eq_self_of_headNotSpace hh]
  have hru : headNotSpace u.reverse = true := by
    unfold headNotSpace
    rw [List.head?_reverse]
    unfold lastNotSpace at hl
    exact hl
  rw [dropWhile_eq_self_of_headNotSpace hru, List.reverse_reverse]

theorem collapseRunsAux_false_ne_nil (c : Nat) (rest : PyStr) :
    collapseRunsAux false (c :: rest) ≠ [] := by
  by_cases h : isSpaceCode c = true
  · rw [collapseRunsAux_cons_space_false h]; simp
  · rw [collapseRunsAux_cons_nonspace (by simpa using h)]; simp

theorem collapseRunsAux_true_eq_nil_iff (v : PyStr) :
    collapseRunsAux true v = [] ↔ v.all isSpaceCode = true := by
  induction v with
  | nil => simp [collapseRunsAux]
  | cons c rest ih =>
    by_cases h : isSpaceCode c = true
    · rw [collapseRunsAux_cons_space_true h]
      simp [h, ih]
    · rw [collapseRunsAux_cons_nonspace (by simpa using h)]
      simp [h]

theorem lastNotSpace_cons_of_ne_nil {a : Nat} {v : PyStr} (h : v ≠ []) :
    lastNotSpace (a :: v) = lastNotSpace v := by
  cases v with
  | nil => exact absurd rfl h
  | cons b w => simp [lastNotSpace, List.getLast?_cons_cons]

theorem headNotSpace_collapse {t : PyStr} (h : headNotSpace t = true) :
    headNotSpace (collapseRunsAux false t) = true := by
  cases t with
  | nil => rfl
  | cons c rest =>
    simp only [headNotSpace, List.head?_cons, Bool.not_eq_true'] at h
    rw [collapseRunsAux_cons_nonspace h]
    simp [headNotSpace, h]

theorem lastNotSpace_collapse :
    ∀ (t : PyStr) (b : Bool), lastNotSpace t = true →
      lastNotSpace (collapseRunsAux b t) = true
  | [], b, _ => by cases b <;> rfl
  | c :: rest, b, h => by
    by_cases hsp : isSpaceCode c = true
    · cases rest with
      | nil => simp [lastNotSpace, hsp] at h
      | cons d rest' =>
        have hrest : lastNotSpace (d :: rest') = true := by
          rw [← lastNotSpace_cons_of_ne_nil (a := c) (by simp)]
          exact h
        cases b with
        | true =>
          rw [collapseRunsAux_cons_space_true hsp]
          exact lastNotSpace_collapse (d :: rest') true hrest
        | false =>
          rw [collapseRunsAux_cons_space_false hsp]
          have hw : collapseRunsAux true (d :: rest') ≠ [] := by
            intro hnil
            rw [collapseRunsAux_true_eq_nil_iff] at hnil
            cases hlast : (d :: rest').getLast? with
            | none => simp at hlast
            | some x =>
              have hx : isSpaceCode x = true := by
                have hmem := List.mem_of_getLast?_eq_some hlast
                exact List.all_eq_true.1 hnil x hmem
              unfold lastNotSpace at hrest
              rw [hlast] at hrest
              simp [hx] at hrest
          rw [lastNotSpace_cons_of_ne_nil hw]
          exact lastNotSpace_collapse (d :: rest') true hrest
    · have hsp' : isSpaceCode c = false := by simpa using hsp
      rw [collapseRunsAux_cons_nonspace hsp']
      cases rest with
      | nil => simpa [lastNotSpace, collapseRunsAux] using h
      | cons d rest' =>
        have hrest : lastNotSpace (d :: rest') = true := by
          rw [← lastNotSpace_cons_of_ne_nil (a := c) (by simp)]
          exact h
        rw [lastNotSpace_cons_of_ne_nil (collapseRunsAux_false_ne_nil d rest')]
        exact lastNotSpace_collapse (d :: rest') false hrest

theorem collapseRunsAux_idem : ∀ (s : PyStr) (b : Bool),
    collapseRunsAux b (collapseRunsAux b s) = collapseRunsAux b s
  | [], b => by cases b <;> rfl
  | c :: rest, b => by
    by_cases hsp : isSpaceCode c = true
    · cases b with
      | true =>
        rw [collapseRunsAux_cons_space_true hsp]
        exact collapseRunsAux_idem rest true
      | false =>
        rw [collapseRunsAux_cons_space_false hsp,
          collapseRunsAux_cons_space_false (show isSpaceCode 32 = true from rfl),
          collapseRunsAux_idem rest true]
    · have hsp' : isSpaceCode c = false := by simpa using hsp
      rw [collapseRunsAux_cons_nonspace hsp',
        collapseRunsAux_cons_nonspace hsp',
        collapseRunsAux_idem rest false]

/-- The whitespace normalisation of the cleaner is idempotent. -/
theorem collapseWs_idem (s : PyStr) : collapseWs (collapseWs s) = collapseWs s := by
  unfold collapseWs collapseRuns
  rw [pyStrip_eq_self (headNotSpace_collapse (headNotSpace_pyStrip s))
    (lastNotSpace_collapse _ false (lastNotSpace_pyStrip s))]
  exact collapseRunsAux_idem (pyStrip s) false

theorem stripRank_eq_self {y : PyStr} (h : rankGuard y = false) : stripRank y = y := by
  simp [stripRank, h]

theorem stripChamp_eq_self {y : PyStr} (h : champGuard y = false) : stripChamp y = y := by
  simp [stripChamp, h]

theorem foldl_stripPrefixKw_id :
    ∀ (l : List PyStr) {y : PyStr}, (∀ kw ∈ l, prefixKwGuard kw y = false) →
      l.foldl stripPrefixKw y = y
  | [], _, _ => rfl
  | kw :: l, y, h => by
    have h1 : prefixKwGuard kw y = false := h kw (by simp)
    simp only [List.foldl_cons]
    rw [show stripPrefixKw y kw = y from by simp [stripPrefixKw, h1]]
    exact foldl_stripPrefixKw_id l (fun k hk => h k (List.mem_cons_of_mem _ hk))

theorem foldl_stripSuffixKw_id :
    ∀ (l : List PyStr) {y : PyStr}, (∀ kw ∈ l, suffixKwGuard kw y = false) →
      l.foldl stripSuffixKw y = y
  | [], _, _ => rfl
  | kw :: l, y, h => by
    have h1 : suffixKwGuard kw y = false := h kw (by simp)
    simp only [List.foldl_cons]
    rw [show stripSuffixKw y kw = y from by simp [stripSuffixKw, h1]]
    exact foldl_stripSuffixKw_id l (fun k hk => h k (List.mem_cons_of_mem _ hk))

theorem clean_fighter_name_pipeline (x : PyStr) :
    clean_fighter_name x =
      collapseWs (suffixKeywords.foldl stripSuffixKw
        (prefixKeywords.foldl stripPrefixKw
          (stripChamp (stripRank (collapseWs x))))) := rfl

/-- C3 (amended): the cleaner is idempotent on every input whose cleaned
form is not itself subject to a further strip: no leading rank or
champion marker, no leading prefix keyword followed by whitespace, no
trailing suffix keyword preceded by whitespace.  (In general the cleaner
is not idempotent: one pass can expose a new strippable keyword, see the
counterexample.) -/
theorem claim_C3_amended (x : PyStr)
    (h1 : rankGuard (clean_fighter_name x) = false)
    (h2 : champGuard (clean_fighter_name x) = false)
    (h3 : ∀ kw ∈ prefixKeywords, prefixKwGuard kw (clean_fighter_name x) = false)
    (h4 : ∀ kw ∈ suffixKeywords, suffixKwGuard kw (clean_fighter_name x) = false) :
    clean_fighter_name (clean_fighter_name x) = clean_fighter_name x := by
  have hc : collapseWs (clean_fighter_name x) = clean_fighter_name x := by
    rw [clean_fighter_name_pipeline x]
    exact collapseWs_idem _
  rw [clean_fighter_name_pipeline (clean_fighter_name x), hc,
    stripRank_eq_self h1, stripChamp_eq_self h2,
    foldl_stripPrefixKw_id prefixKeywords h3,
    foldl_stripSuffixKw_id suffixKeywords h4, hc]

/-- Witness for the amended C3 at a concrete input. -/
theorem claim_C3_amended_witness :
    rankGuard (clean_fighter_name (strToCodes "#4 Justin Gaethje")) = false ∧
      clean_fighter_name (clean_fighter_name (strToCodes "#4 Justin Gaethje")) =
        clean_fighter_name (strToCodes "#4 Justin Gaethje") :=
  ⟨by decide,
    claim_C3_amended (strToCodes "#4 Justin Gaethje") (by decide) (by decide)
      (by decide) (by decide)⟩

/-- C3 counterexample: cleaning `"Main Live Foo"` strips only `"Main "`
(the prefix keyword `"Live"` was already tried before `"Main"`), so a
second pass strips `"Live "` as well: the cleaner is not idempotent. -/
theorem claim_C3_counterexample :
    clean_fighter_name (clean_fighter_name (strToCodes "Main Live Foo")) ≠
      clean_fighter_name (strToCodes "Main Live Foo") := by decide

/-! ### Characterisation of the pair matcher (C5) -/

theorem subIn_iff (a b : PyStr) : subIn a b = true ↔ a <:+: b := by
  unfold subIn
  rw [List.any_eq_true]
  constructor
  · rintro ⟨i, _, heq⟩
    rw [beq_iff_eq] at heq
    refine ⟨b.take i, (b.drop i).drop a.length, ?_⟩
    calc b.take i ++ a ++ (b.drop i).drop a.length
        = b.take i ++ ((b.drop i).take a.length ++ (b.drop i).drop a.length) := by
          rw [heq, List.append_assoc]
      _ = b.take i ++ b.drop i := by rw [List.take_append_drop]
      _ = b := List.take_append_drop i b
  · rintro ⟨s, t, hst⟩
    refine ⟨s.length, ?_, ?_⟩
    · rw [List.mem_range]
      have hle : s.length ≤ b.length := by
        rw [← hst]
        simp [List.length_append]
      omega
    · rw [beq_iff_eq, ← hst, List.append_assoc, List.drop_left, List.take_left]

/-- The pair-matcher contract as the specification words it:
case-insensitive equality, or substring containment of the lowercase
forms together with a shared last whitespace token of the shorter and
the longer name (shorter/longer by character length). -/
def namesMatchSpec (a b : PyStr) : Prop :=
  lowerStr a = lowerStr b ∨
    ((lowerStr a <:+: lowerStr b ∨ lowerStr b <:+: lowerStr a) ∧
      ∃ w, (pySplit (lowerStr (if a.length < b.length then a else b))).getLast? = some w ∧
        (pySplit (lowerStr (if a.length < b.length then b else a))).getLast? = some w)

/-- C5: the pair matcher returns a match exactly under the specified
condition, and the three reference examples behave as stated. -/
theorem claim_C5_matcher :
    (∀ a b : PyStr, names_match a b = true ↔ namesMatchSpec a b) ∧
      names_match (strToCodes "Gaethje") (strToCodes "Justin Gaethje") = true ∧
      names_match (strToCodes "Justin Gaethje") (strToCodes "Max Holloway") = false ∧
      names_match (strToCodes "Jon Jones") (strToCodes "Jon Jones") = true := by
  refine ⟨?_, by decide, by decide, by decide⟩
  intro a b
  unfold names_match namesMatchSpec
  by_cases heq : lowerStr a = lowerStr b
  · rw [if_pos heq]
    simp [heq]
  · rw [if_neg heq]
    by_cases hsub : (subIn (lowerStr a) (lowerStr b) || subIn (lowerStr b) (lowerStr a)) = true
    · rw [if_pos hsub]
      have hsub' : lowerStr a <:+: lowerStr b ∨ lowerStr b <:+: lowerStr a := by
        rw [Bool.or_eq_true, subIn_iff, subIn_iff] at hsub
        exact hsub
      constructor
      · intro h
        refine Or.inr ⟨hsub', ?_⟩
        cases hx : (pySplit (lowerStr (if a.length < b.length then a else b))).getLast? with
        | none => rw [hx] at h; simp at h
        | some x =>
          cases hy : (pySplit (lowerStr (if a.length < b.length then b else a))).getLast? with
          | none => rw [hx, hy] at h; simp at h
          | some y =>
            rw [hx, hy] at h
            simp only [decide_eq_true_eq] at h
            exact ⟨x, rfl, by rw [h]⟩
      · intro h
        rcases h with h | ⟨_, w, hw1, hw2⟩
        · exact absurd h heq
        · rw [hw1, hw2]
          simp
    · rw [if_neg hsub]
      constructor
      · intro h
        simp at h
      · intro h
        rcases h with h | ⟨hs, _⟩
        · exact absurd h heq
        · exact (hsub (by rw [Bool.or_eq_true, subIn_iff, subIn_iff]; exact hs)).elim

/-! ### The replacement decision (C2) -/

/-- The number of noise words that occur (as case-insensitive
substrings) in either name of a pair — the "noise-word occurrences" of
the claim. -/
def noiseCount (p : FighterPair) : Nat :=
  (unwantedWords.filter (fun w => subIn w (lowerStr p.1) || subIn w (lowerStr p.2))).length

/-- The replacement decision as the claim words it: strictly fewer
noise-word occurrences wins outright (in either direction), then
strictly greater total word count, then strictly greater total
character count, otherwise keep. -/
def prefersCurrentByNoiseCount (cur ex : FighterPair) : Bool :=
  if noiseCount cur < noiseCount ex then true
  else if noiseCount ex < noiseCount cur then false
  else if totalWords ex < totalWords cur then true
  else if totalWords cur = totalWords ex && totalLen ex < totalLen cur then true
  else false

theorem hasUnwantedWord_iff_noiseCount (p : FighterPair) :
    hasUnwantedWord p = true ↔ noiseCount p ≠ 0 := by
  unfold hasUnwantedWord noiseCount
  rw [List.any_eq_true]
  constructor
  · rintro ⟨w, hw, hp⟩ h0
    exact (List.filter_eq_nil_iff.1 (List.length_eq_zero.1 h0)) w hw hp
  · intro h
    cases hf : unwantedWords.filter
        (fun w => subIn w (lowerStr p.1) || subIn w (lowerStr p.2)) with
    | nil => exact absurd (by rw [hf]; rfl) h
    | cons w rest =>
      have hw : w ∈ unwantedWords.filter
          (fun w => subIn w (lowerStr p.1) || subIn w (lowerStr p.2)) := by
        rw [hf]; exact List.mem_cons_self _ _
      rw [List.mem_filter] at hw
      exact ⟨w, hw.1, hw.2⟩

theorem noiseCount_zero_of_not_unwanted {p : FighterPair}
    (h : hasUnwantedWord p = false) : noiseCount p = 0 := by
  by_contra hne
  have := (hasUnwantedWord_iff_noiseCount p).mpr hne
  rw [h] at this
  exact Bool.false_ne_true this

/-- C2 (amended): the decision to replace is presence-based, not
count-based: the candidate wins outright exactly when it has no noise
word present while the stored representative has at least one; when the
presence flags agree the word-count and character-count tiebreaks apply;
in every other case (in particular whenever the candidate has a noise
word and the stored representative has none, regardless of how many)
the stored representative is kept. -/
theorem claim_C2_amended (cur ex : FighterPair) :
    prefersCurrent cur ex = true ↔
      ((noiseCount cur = 0 ∧ noiseCount ex ≠ 0) ∨
        ((noiseCount cur = 0 ↔ noiseCount ex = 0) ∧
          (totalWords ex < totalWords cur ∨
            (totalWords cur = totalWords ex ∧ totalLen ex < totalLen cur)))) := by
  have htie : (if totalWords ex < totalWords cur then true
      else if totalWords cur = totalWords ex && totalLen ex < totalLen cur then true
      else false) = true ↔
      (totalWords ex < totalWords cur ∨
        (totalWords cur = totalWords ex ∧ totalLen ex < totalLen cur)) := by
    by_cases hw : totalWords ex < totalWords cur
    · simp [hw]
    · by_cases he2 : totalWords cur = totalWords ex
      · by_cases hl : totalLen ex < totalLen cur
        · simp [hw, he2, hl]
        · simp [hw, he2, hl]
      · simp [hw, he2]
  unfold prefersCurrent
  cases h1 : hasUnwantedWord cur with
  | false =>
    have hc0 : noiseCount cur = 0 := noiseCount_zero_of_not_unwanted h1
    cases h2 : hasUnwantedWord ex with
    | false =>
      have he0 : noiseCount ex = 0 := noiseCount_zero_of_not_unwanted h2
      simp only [Bool.not_false, Bool.true_and, Bool.false_eq_true, if_false,
        beq_self_eq_true, if_true]
      rw [htie]
      constructor
      · intro h
        exact Or.inr ⟨by rw [hc0, he0], h⟩
      · intro h
        rcases h with ⟨_, hne⟩ | ⟨_, h⟩
        · exact absurd he0 hne
        · exact h
    | true =>
      have he1 : noiseCount ex ≠ 0 := (hasUnwantedWord_iff_noiseCount ex).mp h2
      simp only [Bool.not_false, Bool.true_and, if_true]
      constructor
      · intro _
        exact Or.inl ⟨hc0, he1⟩
      · intro _
        trivial
  | true =>
    have hc1 : noiseCount cur ≠ 0 := (hasUnwantedWord_iff_noiseCount cur).mp h1
    cases h2 : hasUnwantedWord ex with
    | false =>
      have he0 : noiseCount ex = 0 := noiseCount_zero_of_not_unwanted h2
      simp only [Bool.not_true, Bool.false_and, Bool.false_eq_true, if_false]
      constructor
      · intro h
        exact absurd h (by simp)
      · intro h
        rcases h with ⟨hc0, _⟩ | ⟨hiff, _⟩
        · exact absurd hc0 hc1
        · exact absurd (hiff.mpr he0) hc1
    | true =>
      have he1 : noiseCount ex ≠ 0 := (hasUnwantedWord_iff_noiseCount ex).mp h2
      simp only [Bool.not_true, Bool.false_and, Bool.false_eq_true, if_false,
        beq_self_eq_true, if_true]
      rw [htie]
      constructor
      · intro h
        refine Or.inr ⟨?_, h⟩
        constructor
        · intro hc0; exact absurd hc0 hc1
        · intro he0; exact absurd he0 he1
      · intro h
        rcases h with ⟨hc0, _⟩ | ⟨_, h⟩
        · exact absurd hc0 hc1
        · exact h

/-- C2 counterexample: a reachable aggregation step where the candidate
has strictly fewer noise-word occurrences (1 against 2) but is not
noise-free, so the code keeps the stored representative while the
count-based claim demands a replacement.  In the text below the pair
`("Cardona", "Smith")` matches the stored `("Oliver Cardona", "Bob Smith")`
(noise words: `card` in "Cardona"; `live` and `card` in "Oliver Cardona"),
and the output keeps the stored pair. -/
theorem claim_C2_counterexample :
    noiseCount (strToCodes "Cardona", strToCodes "Smith") = 1 ∧
      noiseCount (strToCodes "Oliver Cardona", strToCodes "Bob Smith") = 2 ∧
      prefersCurrentByNoiseCount (strToCodes "Cardona", strToCodes "Smith")
        (strToCodes "Oliver Cardona", strToCodes "Bob Smith") = true ∧
      prefersCurrent (strToCodes "Cardona", strToCodes "Smith")
        (strToCodes "Oliver Cardona", strToCodes "Bob Smith") = false ∧
      validCleanedPairs (strToCodes "Oliver Cardona vs Bob Smith. Cardona vs Smith") =
        [(strToCodes "Oliver Cardona", strToCodes "Bob Smith"),
          (strToCodes "Cardona", strToCodes "Smith")] ∧
      pairsMatchBidir (strToCodes "Cardona", strToCodes "Smith")
        (strToCodes "Oliver Cardona", strToCodes "Bob Smith") = true ∧
      get_fighter_pairs_from_ufc_event
          (strToCodes "Oliver Cardona vs Bob Smith. Cardona vs Smith") =
        [(strToCodes "Oliver Cardona", strToCodes "Bob Smith")] := by
  refine ⟨by decide, by decide, by decide, by decide, by decide, by decide, by decide⟩

/-! ### The remaining claims -/

/-- C1 counterexample: a page text that contains both mentions, with
nothing but a space between them.  The greedy first group then captures
`"Justin Gaethje vs Max Holloway Live now Gaethje"` (47 characters, all
in the name class), the whole match is discarded by the length-40
validity bound, and the aggregator returns no pair at all — not the
claimed single `("Justin Gaethje", "Max Holloway")`. -/
theorem claim_C1_counterexample :
    subIn (strToCodes "#4 Justin Gaethje vs Max Holloway")
        (strToCodes "#4 Justin Gaethje vs Max Holloway Live now Gaethje vs Holloway") =
      true ∧
      subIn (strToCodes "Live now Gaethje vs Holloway")
          (strToCodes "#4 Justin Gaethje vs Max Holloway Live now Gaethje vs Holloway") =
        true ∧
      get_fighter_pairs_from_ufc_event
          (strToCodes "#4 Justin Gaethje vs Max Holloway Live now Gaethje vs Holloway") =
        [] := by
  refine ⟨by decide, by decide, by decide⟩

/-- C1 (amended): for the representative page text in which the two
mentions are delimited by punctuation outside the name-character class,
the aggregator yields exactly one output pair for the pairing, namely
`("Justin Gaethje", "Max Holloway")` — the noise-free, more complete
variant wins. -/
theorem claim_C1_amended :
    get_fighter_pairs_from_ufc_event
        (strToCodes "#4 Justin Gaethje vs Max Holloway. Live now Gaethje vs Holloway") =
      [(strToCodes "Justin Gaethje", strToCodes "Max Holloway")] := by decide

/-- C6: the cleaner strips a leading rank marker, a leading keyword
prefix, and a trailing keyword suffix, as on the three representative
inputs of the specification. -/
theorem claim_C6_cleaner :
    clean_fighter_name (strToCodes "#4 Justin Gaethje") = strToCodes "Justin Gaethje" ∧
      clean_fighter_name (strToCodes "Live now Israel Adesanya") =
        strToCodes "Israel Adesanya" ∧
      clean_fighter_name (strToCodes "Tom Aspinall Round") = strToCodes "Tom Aspinall" := by
  refine ⟨by decide, by decide, by decide⟩

/-- C8: the empty text produces no pairs, the "no fights found" message
and no output file; and in general, whenever no valid pairs remain
after filtering, the script takes the same empty-result path. -/
theorem claim_C8_empty_result :
    get_fighter_pairs_from_ufc_event [] = [] ∧
      mainOutcome [] = ([], false, noFightsMessage) ∧
      ∀ t : PyStr, validCleanedPairs t = [] →
        get_fighter_pairs_from_ufc_event t = [] ∧
          mainOutcome t = ([], false, noFightsMessage) := by
  refine ⟨by decide, by decide, ?_⟩
  intro t h
  have hget : get_fighter_pairs_from_ufc_event t = [] := by
    unfold get_fighter_pairs_from_ufc_event
    rw [h]
    rfl
  refine ⟨hget, ?_⟩
  unfold mainOutcome
  rw [hget]
  rfl

/-- Witness for C8 at a concrete non-empty text with no valid pairs. -/
theorem claim_C8_empty_result_witness :
    validCleanedPairs (strToCodes "no fighters here") = [] ∧
      mainOutcome (strToCodes "no fighters here") = ([], false, noFightsMessage) :=
  ⟨by decide,
    (claim_C8_empty_result.2.2 (strToCodes "no fighters here") (by decide)).2⟩

/-- C9: two valid cleaned pairs that do not match under the pair
matcher on any side can still share the same sorted normalized key
(equal surnames, different first names); the second insertion then
overwrites the first entry of the aggregation dict, and only the later
pair survives in the output. -/
theorem claim_C9_key_overwrite :
    validCleanedPairs (strToCodes "John Smith vs Alice Jones. Bob Smith vs Carol Jones") =
        [(strToCodes "John Smith", strToCodes "Alice Jones"),
          (strToCodes "Bob Smith", strToCodes "Carol Jones")] ∧
      names_match (strToCodes "Bob Smith") (strToCodes "John Smith") = false ∧
      names_match (strToCodes "Carol Jones") (strToCodes "Alice Jones") = false ∧
      names_match (strToCodes "Bob Smith") (strToCodes "Alice Jones") = false ∧
      names_match (strToCodes "Carol Jones") (strToCodes "John Smith") = false ∧
      pairKeyOf (strToCodes "John Smith", strToCodes "Alice Jones") =
        pairKeyOf (strToCodes "Bob Smith", strToCodes "Carol Jones") ∧
      get_fighter_pairs_from_ufc_event
          (strToCodes "John Smith vs Alice Jones. Bob Smith vs Carol Jones") =
        [(strToCodes "Bob Smith", strToCodes "Carol Jones")] := by
  refine ⟨by decide, by decide, by decide, by decide, by decide, by decide, by decide⟩

/-- C10: whenever `names_match` returns `True`, the two names reduce to
the same normalized grouping key. -/
theorem claim_C10_match_implies_same_key (a b : PyStr) (h : names_match a b = true) :
    normalize_name_for_matching a = normalize_name_for_matching b :=
  names_match_normalize h

/-- Witness for C10. -/
theorem claim_C10_match_implies_same_key_witness :
    names_match (strToCodes "Gaethje") (strToCodes "Justin Gaethje") = true ∧
      normalize_name_for_matching (strToCodes "Gaethje") =
        normalize_name_for_matching (strToCodes "Justin Gaethje") :=
  ⟨by decide,
    claim_C10_match_implies_same_key (strToCodes "Gaethje")
      (strToCodes "Justin Gaethje") (by decide)⟩

end UfcScrape
